import Mathlib

/-!
Verification of the section-scoped paper-title parser and its helper
functions from `automation-tool/paper_downloader_enhanced.py`.

Strings are modelled as `List Char` (Python `str` of Unicode code points);
the Python functions are translated into executable Lean functions:

* `pyStrip`            — `str.strip()`
* `splitLines`         — `str.split('\n')`
* `is_paper_title_line` — the candidacy filter with its skip-pattern list
* `extractChars`       — `extract_title_from_line` (the three extraction
  rules in precedence order, followed by bold-stripping and whitespace
  normalisation)
* `parse_papers_from_main_readme` — the single-pass section-scoped scan
* `sanitize_filename`  — filename derivation
* `clean_title`, `generate_paper_hash` — the deduplication fingerprint
  (with a full MD5 implementation over `Nat` arithmetic mod 2^32)

Regular-expression matches are compiled by hand into deterministic
scanning functions; backtracking was analysed per pattern and is resolved
deterministically wherever the pattern allows it (documented inline).
`\w` and case conversion are modelled over ASCII via `Char.isAlphanum`
and `Char.toLower`.
-/

/-- Python whitespace (`str.strip` default set and regex `\s`, ASCII part). -/
def isWS (c : Char) : Bool :=
  c = ' ' || c = '\t' || c = '\n' || c = '\r' || c = '\x0b' || c = '\x0c'

/-- Strip trailing whitespace (right half of `str.strip()`). -/
def rstrip (l : List Char) : List Char :=
  (l.reverse.dropWhile isWS).reverse

/-- `str.strip()`: drop leading and trailing whitespace. -/
def pyStrip (l : List Char) : List Char :=
  rstrip (l.dropWhile isWS)

/-- `str.split('\n')`: always returns at least one (possibly empty) line. -/
def splitLines : List Char → List (List Char)
  | [] => [[]]
  | '\n' :: r => [] :: splitLines r
  | c :: r =>
    match splitLines r with
    | h :: t => (c :: h) :: t
    | [] => [[c]]

/-- Python substring test `p in l` (contiguous subsequence). -/
def containsSeq (p : List Char) : List Char → Bool
  | [] => p.isEmpty
  | c :: r => p.isPrefixOf (c :: r) || containsSeq p r

/-- Matches a prefix `p` that must be followed by one whitespace character,
compiling regexes of the shape `^<literal>\s`. -/
def prefThenWS (p : List Char) (l : List Char) : Bool :=
  p.isPrefixOf l &&
    (match l.drop p.length with
     | c :: _ => isWS c
     | [] => false)

/-- The skip pattern `^authors?:` applied to the lowercased line. -/
def authorsLabel (low : List Char) : Bool :=
  "authors:".data.isPrefixOf low || "author:".data.isPrefixOf low

/-- `^runners?\s?ups?`: after `runner`, an optional `s`, an optional single
whitespace character, then `up`.  Greedy consumption of the optional parts
is deterministic here because a skipped `s` would have to be matched by
`\s` or `u`, and a skipped whitespace character by `u`. -/
def runnerUps (low : List Char) : Bool :=
  if "runner".data.isPrefixOf low then
    let r1 := low.drop 6
    let r2 := match r1 with
      | 's' :: t => t
      | _ => r1
    let r3 := match r2 with
      | c :: t => if isWS c then t else r2
      | [] => r2
    "up".data.isPrefixOf r3
  else false

/-- `.*\]` fragment: is there a `]` reachable without crossing a newline
(`.` does not match `\n`)? -/
def existsCloseBeforeNl : List Char → Bool
  | [] => false
  | c :: r => if c = ']' then true else if c = '\n' then false else existsCloseBeforeNl r

/-- `\]\[.*\]` scan used by the link-reference pattern: find `][` (without
crossing a newline) followed by a later `]`. -/
def closeOpenScan : List Char → Bool
  | [] => false
  | [_] => false
  | c1 :: c2 :: r =>
    if c1 = '\n' then false
    else if c1 = ']' && c2 = '[' && existsCloseBeforeNl r then true
    else closeOpenScan (c2 :: r)

/-- `^\[.*\]\[.*\]`: link-reference lines such as `[Best Papers] [All Papers]`. -/
def linkRef (low : List Char) : Bool :=
  match low with
  | '[' :: r => closeOpenScan r
  | _ => false

/-- `^\d{4}\s*$`: a bare four-digit year. -/
def yearOnly (l : List Char) : Bool :=
  match l with
  | a :: b :: c :: d :: rest =>
    a.isDigit && b.isDigit && c.isDigit && d.isDigit && rest.all isWS
  | _ => false

/-- The ordered skip-pattern list of `is_paper_title_line` (a line matching
any pattern is rejected).  `L` is the stripped line; case-insensitive
patterns are tested against its lowercased form. -/
def skipMatch (L : List Char) : Bool :=
  let low := L.map Char.toLower
  authorsLabel low
  || (match low with | '#' :: _ => true | _ => false)
  || prefThenWS "best papers".data low
  || prefThenWS "best paper".data low
  || prefThenWS "best student".data low
  || prefThenWS "longuet-higgins".data low
  || prefThenWS "test of time".data low
  || prefThenWS "helmholtz".data low
  || prefThenWS "outstanding".data low
  || "award candidates".data.isPrefixOf low
  || runnerUps low
  || (low = "content".data || low = "contents".data)
  || linkRef low
  || "back to top".data.isPrefixOf low
  || "table of contents".data.isPrefixOf low
  || yearOnly L
  || (!L.isEmpty && L.all (fun c => c = '-'))
  || (!L.isEmpty && L.all (fun c => c = '='))
  || (!L.isEmpty && L.all (fun c => c = '*'))
  || (match L.dropWhile isWS with | '|' :: _ => true | _ => false)
  || prefThenWS "venue".data low
  || prefThenWS "year".data low

/-- `is_paper_title_line`: candidacy filter for a line. -/
def is_paper_title_line (l : List Char) : Bool :=
  let L := pyStrip l
  if L.isEmpty then false
  else if skipMatch L then false
  else if L.length < 10 then false
  else
    let low := L.map Char.toLower
    (containsSeq "[paper]".data low || containsSeq "[pdf]".data low
      || containsSeq "[link]".data low)
    || (decide (L.length > 15)
        && !("http".data.isPrefixOf L || "www".data.isPrefixOf L
             || "```".data.isPrefixOf L))

/-- `\s*\[.*?\]` fragment after the run of `[^)]+` and its closing `)`:
skip whitespace, require `[`, then a later `]`. -/
def brackOpen : List Char → Bool
  | [] => false
  | c :: r4 => if c = '[' then existsCloseBeforeNl r4 else false

/-- After the `[^)]+` run: the head here is the first `)` (by construction
of `dropWhile`); consume it and continue with `\s*\[.*?\]`. -/
def brackTail : List Char → Bool
  | [] => false
  | _ :: r3 => brackOpen (r3.dropWhile isWS)

/-- `\([^)]+\)\s*\[.*?\]` anchored at the head: `(`, a nonempty run of
non-`)` characters (necessarily up to the first `)`), then the bracket
tail. -/
def parenBody : List Char → Bool
  | [] => false
  | c :: r2 =>
    if c = '(' then
      if (r2.takeWhile (fun x => x ≠ ')')).isEmpty then false
      else brackTail (r2.dropWhile (fun x => x ≠ ')'))
    else false

/-- Tail of the rule-a regex `\s*\([^)]+\)\s*\[.*?\]` after the captured
group.  All the quantifiers here are deterministic: `\s*` cannot stop on a
non-`(`, and `[^)]+` cannot stop before the first `)`. -/
def tailMatchA (r : List Char) : Bool :=
  parenBody (r.dropWhile isWS)

/-- Scanner for `^(.+?)\s*\([^)]+\)\s*\[.*?\]`: the lazy group grows one
character at a time (it cannot contain a newline); after each character the
deterministic tail is tried.  `acc` is the reversed group so far. -/
def matchAGo (acc : List Char) : List Char → Option (List Char)
  | [] => none
  | c :: r =>
    if c = '\n' then none
    else if tailMatchA r then some ((c :: acc).reverse)
    else matchAGo (c :: acc) r

/-- Rule a of `extract_title_from_line`:
`re.match(r'^(.+?)\s*\([^)]+\)\s*\[.*?\]', line)`, returning group 1. -/
def matchA (l : List Char) : Option (List Char) :=
  matchAGo [] l

/-- `\]\([^)]+\)` tail of the markdown-link regex: `(`, a nonempty run of
non-`)` characters, then `)`. -/
def parenAfter : List Char → Bool
  | [] => false
  | c :: r2 =>
    if c = '(' then
      !(r2.takeWhile (fun x => x ≠ ')')).isEmpty
        && !(r2.dropWhile (fun x => x ≠ ')')).isEmpty
    else false

/-- Lazy group scan for `\[(.+?)\]\([^)]+\)` after an opening `[`: the
shortest group whose closing `]` is followed by a valid `(...)`. -/
def matchBGo (acc : List Char) : List Char → Option (List Char)
  | [] => none
  | c :: r =>
    if c = '\n' then none
    else if c = ']' && !acc.isEmpty && parenAfter r then some acc.reverse
    else matchBGo (c :: acc) r

/-- Rule b of `extract_title_from_line`:
`re.search(r'\[(.+?)\]\([^)]+\)', line)`, leftmost match, returning group 1. -/
def matchB : List Char → Option (List Char)
  | [] => none
  | c :: r =>
    if c = '[' then Option.elim (matchBGo [] r) (matchB r) some
    else matchB r

/-- `\[.*?\]\s*$` validity after an opening `[`: a `]` reachable without a
newline such that everything after it is whitespace. -/
def validBrTail : List Char → Bool
  | [] => false
  | c :: r =>
    if c = ']' && r.all isWS then true
    else if c = '\n' then false
    else validBrTail r

/-- Rule c, first substitution: `re.sub(r'\s*\[.*?\]\s*$', '', line)` up to
whitespace at the cut point (the source immediately applies `.strip()`,
which removes the `\s*` kept here). -/
def sub1core : List Char → List Char
  | [] => []
  | c :: r =>
    if c = '[' then (if validBrTail r then [] else c :: sub1core r)
    else c :: sub1core r

/-- Four consecutive digit characters somewhere in the list (`\d{4}`). -/
def has4Digits : List Char → Bool
  | a :: b :: c :: d :: r =>
    (a.isDigit && b.isDigit && c.isDigit && d.isDigit) || has4Digits (b :: c :: d :: r)
  | _ => false

/-- Rule c, second substitution:
`re.sub(r'\s*\([^)]*\d{4}[^)]*\)\s*$', '', title)` up to whitespace at the
cut point (removed by the `.strip()` that follows in the source). -/
def sub2core : List Char → List Char
  | [] => []
  | c :: r =>
    if c = '(' then
      let inner := r.takeWhile (fun x => x ≠ ')')
      let rest := r.dropWhile (fun x => x ≠ ')')
      if !rest.isEmpty && rest.tail.all isWS && has4Digits inner then []
      else c :: sub2core r
    else c :: sub2core r

/-- `re.sub(r'\*\*', '', title)`: delete `**` pairs left to right. -/
def removeBold : List Char → List Char
  | '*' :: '*' :: r => removeBold r
  | c :: r => c :: removeBold r
  | [] => []

/-- Scanner for `re.sub(r'\s+', rep, title)`: `inRun` records whether the
previous character was whitespace (so each maximal whitespace run emits a
single `rep`). -/
def collapseGo (rep : Char) : Bool → List Char → List Char
  | _, [] => []
  | inRun, c :: r =>
    if isWS c then
      (if inRun then [] else [rep]) ++ collapseGo rep true r
    else c :: collapseGo rep false r

/-- `re.sub(r'\s+', rep, title)`: collapse every whitespace run to `rep`. -/
def collapseWith (rep : Char) (l : List Char) : List Char :=
  collapseGo rep false l

/-- The shared cleanup tail of `extract_title_from_line`: strip bold
markers, normalise whitespace, strip ends. -/
def cleanupTitle (t : List Char) : List Char :=
  pyStrip (collapseWith ' ' (removeBold t))

/-- Rule c of `extract_title_from_line`: strip a trailing bracketed
segment, then a trailing year-bearing parenthetical, stripping after each. -/
def ruleC (L : List Char) : List Char :=
  pyStrip (sub2core (pyStrip (sub1core L)))

/-- The three extraction rules of `extract_title_from_line` in precedence
order, applied to the stripped line. -/
def rawTitle (L : List Char) : List Char :=
  Option.elim (matchA L) (Option.elim (matchB L) (ruleC L) pyStrip) pyStrip

/-- `extract_title_from_line` on character lists. -/
def extractChars (l : List Char) : List Char :=
  cleanupTitle (rawTitle (pyStrip l))

/-- `extract_title_from_line` on strings. -/
def extract_title_from_line (s : String) : String :=
  String.mk (extractChars s.data)

/-- A parsed paper record (`{'title', 'section', 'raw_line'}`); the Python
key `section` is renamed `paperSection` because `section` is a Lean keyword. -/
structure Paper where
  title : String
  paperSection : String
  raw_line : String
deriving DecidableEq, Repr

/-- The configured section names, in dictionary insertion order. -/
def sectionNames : List String :=
  ["CVPR", "ICLR", "NeurIPS", "ICCV", "ICML", "ECCV", "AAAI", "WACV", "BMVC",
   "Test-of-Time-Papers"]

/-- The initial parse result: every configured section mapped to `[]`. -/
def initSections : List (String × List Paper) :=
  sectionNames.map (fun n => (n, []))

/-- `#+\s*` header lead-in: at least one `#`, the whole `#` run, then the
whitespace run.  Deterministic because no section pattern continues with a
`#` or a whitespace character. -/
def afterHashWS : List Char → Option (List Char)
  | c :: r =>
    if c = '#' then some ((r.dropWhile (fun x => x = '#')).dropWhile isWS)
    else none
  | [] => none

/-- Case-insensitive literal match: if the lowercased `p`-length prefix of
`l` equals `p` (given lowercase), return the remainder. -/
def ciPrefixDrop (p : List Char) (l : List Char) : Option (List Char) :=
  if (l.take p.length).map Char.toLower = p then some (l.drop p.length) else none

/-- `(?:\s|$)` after a section name. -/
def wsOrEnd : List Char → Bool
  | [] => true
  | c :: _ => isWS c

/-- `re.match(rf'#+\s*{name}(?:\s|$)', line, IGNORECASE)` for the regular
section names (all alphanumeric, so `re.escape` is the identity). -/
def matchHeaderName (name : String) (l : List Char) : Bool :=
  Option.elim ((afterHashWS l).bind (ciPrefixDrop (name.data.map Char.toLower)))
    false wsOrEnd

/-- `\s+`: at least one whitespace character, consumed greedily
(deterministic: every following literal starts with a letter). -/
def dropWS1 : List Char → Option (List Char)
  | c :: r => if isWS c then some (r.dropWhile isWS) else none
  | [] => none

/-- `s?(?:\s|$)` after `paper`: an optional (case-insensitive) `s`, then
whitespace or end of line. -/
def totSuffix : List Char → Bool
  | [] => true
  | c :: rest => if c.toLower = 's' then wsOrEnd rest else isWS c

/-- `re.match(r'#+\s*test\s+of\s+time\s+papers?(?:\s|$)', line, IGNORECASE)`:
the semantic pattern for the Test-of-Time section. -/
def matchTot (l : List Char) : Bool :=
  Option.elim
    ((((((((afterHashWS l).bind
        (ciPrefixDrop "test".data)).bind dropWS1).bind
        (ciPrefixDrop "of".data)).bind dropWS1).bind
        (ciPrefixDrop "time".data)).bind dropWS1).bind
        (ciPrefixDrop "paper".data))
    false totSuffix

/-- The detection rule for one section: the semantic pattern for the
Test-of-Time key, the literal name pattern for every other key. -/
def sectionRule (n : String) (l : List Char) : Bool :=
  if n = "Test-of-Time-Papers" then matchTot l else matchHeaderName n l

/-- The header-detection loop over `sections.keys()`, first match wins. -/
def headerForAux : List String → List Char → Option String
  | [], _ => none
  | n :: ns, l => if sectionRule n l then some n else headerForAux ns l

/-- Which section (if any) a stripped line opens. -/
def headerFor (l : List Char) : Option String :=
  headerForAux sectionNames l

/-- `sections[current_section].append(...)` on the association-list model. -/
def appendTo (m : List (String × List Paper)) (k : String) (p : Paper) :
    List (String × List Paper) :=
  m.map (fun kv => if kv.1 = k then (kv.1, kv.2 ++ [p]) else kv)

/-- The final validation applied to an extracted title before it is added. -/
def bannedSubs : List String :=
  ["readme", "back to top", "table of contents", "best papers",
   "best paper", "authors:", "venue:", "year:"]

/-- `len(title) > 10 and not any(skip in title.lower() for skip in ...)`. -/
def finalValid (title : List Char) : Bool :=
  decide (title.length > 10)
    && !(bannedSubs.any (fun b => containsSeq b.data (title.map Char.toLower)))

/-- One iteration of the parser loop: header detection, then candidacy,
extraction and final validation under the current section. -/
def parseStep (st : Option String × List (String × List Paper))
    (line : List Char) : Option String × List (String × List Paper) :=
  let ls := pyStrip line
  Option.elim (headerFor ls)
    (Option.elim st.1 st (fun s =>
      if is_paper_title_line ls then
        if finalValid (extractChars ls) then
          (st.1, appendTo st.2 s
            (Paper.mk (String.mk (extractChars ls)) s (String.mk line)))
        else st
      else st))
    (fun s => (some s, st.2))

/-- `parse_papers_from_main_readme`: empty content returns the empty dict;
otherwise a single forward pass over the lines. -/
def parse_papers_from_main_readme (content : String) :
    List (String × List Paper) :=
  if content = "" then []
  else ((splitLines content.data).foldl parseStep (none, initSections)).2

/-- Total number of records in a parse result. -/
def totalRecords (m : List (String × List Paper)) : Nat :=
  (m.map (fun kv => kv.2.length)).sum

/-- Number of lines that are candidates *and* whose extracted title passes
final validation, while some section is active (mirrors exactly the
condition under which `parseStep` appends a record). -/
def countAccept : Option String → List (List Char) → Nat
  | _, [] => 0
  | cur, line :: rest =>
    let ls := pyStrip line
    Option.elim (headerFor ls)
      (Option.elim cur (countAccept cur rest) (fun _ =>
        (if is_paper_title_line ls && finalValid (extractChars ls) then 1 else 0)
          + countAccept cur rest))
      (fun s => countAccept (some s) rest)

/-- Accepted-line count for a whole document. -/
def acceptedCount (content : String) : Nat :=
  countAccept none (splitLines content.data)

/-- Modelled from the spec: the number of lines classified as "paper title
lines" while some section was active (the quantity named by the
specification's invariant, *without* the final-validation filter). -/
def countClassified : Option String → List (List Char) → Nat
  | _, [] => 0
  | cur, line :: rest =>
    let ls := pyStrip line
    Option.elim (headerFor ls)
      (Option.elim cur (countClassified cur rest) (fun _ =>
        (if is_paper_title_line ls then 1 else 0) + countClassified cur rest))
      (fun s => countClassified (some s) rest)

/-- Classified-line count for a whole document (spec's invariant quantity). -/
def classifiedCount (content : String) : Nat :=
  countClassified none (splitLines content.data)

/-- The character class removed by `sanitize_filename`
(`re.sub(r'[<>:"/\\|?*]', '', title)`). -/
def badFileChars : List Char := ['<', '>', ':', '"', '/', '\\', '|', '?', '*']

/-- `sanitize_filename(title, section)`: remove invalid filename characters,
replace CR/LF by spaces, strip, collapse whitespace runs to `_`, truncate
to 80 characters, prefix the section when nonempty, append `.pdf`. -/
def sanitize_filename (title : String) (sectionName : String) : String :=
  let s1 := title.data.filter (fun c => !decide (c ∈ badFileChars))
  let s2 := s1.map (fun c => if c = '\n' || c = '\r' then ' ' else c)
  let s3 := collapseWith '_' (pyStrip s2)
  let s4 := if s3.length > 80 then s3.take 80 else s3
  let s5 := if sectionName ≠ "" then sectionName.data ++ '_' :: s4 else s4
  String.mk (s5 ++ ".pdf".data)

/-- `clean_title`: lowercase, strip, then delete characters that are
neither word characters (`\w`, modelled as ASCII alphanumeric or `_`)
nor whitespace. -/
def clean_title (title : String) : String :=
  String.mk ((pyStrip (title.data.map Char.toLower)).filter
    (fun c => c.isAlphanum || c = '_' || isWS c))

/-- Modelled from the claim's words: "lowercasing and deleting non-word,
non-space characters" — the same normalisation as `clean_title` but
without the initial `strip()`. -/
def lowerDelete (title : String) : String :=
  String.mk ((title.data.map Char.toLower).filter
    (fun c => c.isAlphanum || c = '_' || isWS c))

/-- `a.lower().strip()` for an author name. -/
def pyLowerStrip (s : String) : String :=
  String.mk (pyStrip (s.data.map Char.toLower))

/-! ### MD5 (`hashlib.md5`), over `Nat` arithmetic modulo `2^32`. -/

/-- UTF-8 encoding of a character sequence (`str.encode()`). -/
def utf8Bytes : List Char → List Nat
  | [] => []
  | c :: r =>
    let n := c.toNat
    (if n < 128 then [n]
     else if n < 2048 then [192 + n / 64, 128 + n % 64]
     else if n < 65536 then
       [224 + n / 4096, 128 + (n / 64) % 64, 128 + n % 64]
     else
       [240 + n / 262144, 128 + (n / 4096) % 64, 128 + (n / 64) % 64,
        128 + n % 64]) ++ utf8Bytes r

/-- 2^32. -/
def md5M : Nat := 4294967296

/-- Bitwise complement within 32 bits. -/
def not32 (x : Nat) : Nat := 4294967295 - x

/-- Rotate a 32-bit word left by `s` bits. -/
def rotl32 (x s : Nat) : Nat := ((x * 2 ^ s) % md5M) ||| (x / 2 ^ (32 - s))

/-- The 64 MD5 sine-derived constants. -/
def md5K : List Nat :=
  [0xd76aa478, 0xe8c7b756, 0x242070db, 0xc1bdceee,
   0xf57c0faf, 0x4787c62a, 0xa8304613, 0xfd469501,
   0x698098d8, 0x8b44f7af, 0xffff5bb1, 0x895cd7be,
   0x6b901122, 0xfd987193, 0xa679438e, 0x49b40821,
   0xf61e2562, 0xc040b340, 0x265e5a51, 0xe9b6c7aa,
   0xd62f105d, 0x02441453, 0xd8a1e681, 0xe7d3fbc8,
   0x21e1cde6, 0xc33707d6, 0xf4d50d87, 0x455a14ed,
   0xa9e3e905, 0xfcefa3f8, 0x676f02d9, 0x8d2a4c8a,
   0xfffa3942, 0x8771f681, 0x6d9d6122, 0xfde5380c,
   0xa4beea44, 0x4bdecfa9, 0xf6bb4b60, 0xbebfbc70,
   0x289b7ec6, 0xeaa127fa, 0xd4ef3085, 0x04881d05,
   0xd9d4d039, 0xe6db99e5, 0x1fa27cf8, 0xc4ac5665,
   0xf4292244, 0x432aff97, 0xab9423a7, 0xfc93a039,
   0x655b59c3, 0x8f0ccc92, 0xffeff47d, 0x85845dd1,
   0x6fa87e4f, 0xfe2ce6e0, 0xa3014314, 0x4e0811a1,
   0xf7537e82, 0xbd3af235, 0x2ad7d2bb, 0xeb86d391]

/-- The per-round left-rotation amounts. -/
def md5S : List Nat :=
  [7, 12, 17, 22, 7, 12, 17, 22, 7, 12, 17, 22, 7, 12, 17, 22,
   5, 9, 14, 20, 5, 9, 14, 20, 5, 9, 14, 20, 5, 9, 14, 20,
   4, 11, 16, 23, 4, 11, 16, 23, 4, 11, 16, 23, 4, 11, 16, 23,
   6, 10, 15, 21, 6, 10, 15, 21, 6, 10, 15, 21, 6, 10, 15, 21]

/-- The round mixing function (F, G, H, I by round quarter). -/
def md5F (i b c d : Nat) : Nat :=
  if i < 16 then (b &&& c) ||| (not32 b &&& d)
  else if i < 32 then (d &&& b) ||| (not32 d &&& c)
  else if i < 48 then b ^^^ c ^^^ d
  else c ^^^ (b ||| not32 d)

/-- The message-word index schedule. -/
def md5G (i : Nat) : Nat :=
  if i < 16 then i
  else if i < 32 then (5 * i + 1) % 16
  else if i < 48 then (3 * i + 5) % 16
  else (7 * i) % 16

/-- Little-endian 32-bit words from a byte list. -/
def leWords : List Nat → List Nat
  | b0 :: b1 :: b2 :: b3 :: r =>
    (b0 + 256 * b1 + 65536 * b2 + 16777216 * b3) :: leWords r
  | _ => []

/-- One MD5 round on state `(a, b, c, d)`. -/
def md5Round (w : List Nat) (st : Nat × Nat × Nat × Nat) (i : Nat) :
    Nat × Nat × Nat × Nat :=
  let a := st.1
  let b := st.2.1
  let c := st.2.2.1
  let d := st.2.2.2
  let f := (md5F i b c d + a + md5K.getD i 0 + w.getD (md5G i) 0) % md5M
  (d, (b + rotl32 f (md5S.getD i 0)) % md5M, b, c)

/-- Process one 64-byte chunk. -/
def md5Chunk (bytes : List Nat) (st : Nat × Nat × Nat × Nat) :
    Nat × Nat × Nat × Nat :=
  let w := leWords bytes
  let r := (List.range 64).foldl (md5Round w) st
  ((st.1 + r.1) % md5M, (st.2.1 + r.2.1) % md5M,
   (st.2.2.1 + r.2.2.1) % md5M, (st.2.2.2 + r.2.2.2) % md5M)

/-- Process all 64-byte chunks of a padded message, accumulating the
current chunk in `buf` (the padding always yields a multiple of 64 bytes,
so `buf` is empty when the input runs out). -/
def md5Run (buf : List Nat) : List Nat → Nat × Nat × Nat × Nat → Nat × Nat × Nat × Nat
  | [], st => st
  | b :: rest, st =>
    if buf.length = 63 then md5Run [] rest (md5Chunk (buf ++ [b]) st)
    else md5Run (buf ++ [b]) rest st

/-- Process all 64-byte chunks of a padded message. -/
def md5Chunks (msg : List Nat) (st : Nat × Nat × Nat × Nat) :
    Nat × Nat × Nat × Nat :=
  md5Run [] msg st

/-- A 64-bit value as eight little-endian bytes. -/
def le8 (n : Nat) : List Nat :=
  [n % 256, (n / 256) % 256, (n / 65536) % 256, (n / 16777216) % 256,
   (n / 4294967296) % 256, (n / 1099511627776) % 256,
   (n / 281474976710656) % 256, (n / 72057594037927936) % 256]

/-- MD5 padding: `0x80`, zeros to 56 mod 64, then the bit length. -/
def md5Pad (msg : List Nat) : List Nat :=
  let len := msg.length
  let z := (120 - ((len + 1) % 64)) % 64
  msg ++ [128] ++ List.replicate z 0 ++ le8 ((len * 8) % 18446744073709551616)

/-- Lowercase hex digit. -/
def hexChar (n : Nat) : Char := "0123456789abcdef".data.getD n '0'

/-- A byte as two hex digits. -/
def byteHex (b : Nat) : List Char := [hexChar (b / 16), hexChar (b % 16)]

/-- A 32-bit word as eight hex digits, little-endian byte order. -/
def wordHexLE (w : Nat) : List Char :=
  byteHex (w % 256) ++ byteHex ((w / 256) % 256) ++ byteHex ((w / 65536) % 256)
    ++ byteHex ((w / 16777216) % 256)

/-- `hashlib.md5(s.encode()).hexdigest()`. -/
def md5hex (s : String) : String :=
  let msg := md5Pad (utf8Bytes s.data)
  let r := md5Chunks msg (0x67452301, 0xefcdab89, 0x98badcfe, 0x10325476)
  String.mk (wordHexLE r.1 ++ wordHexLE r.2.1 ++ wordHexLE r.2.2.1
    ++ wordHexLE r.2.2.2)

/-- `generate_paper_hash(title, authors)`: the deduplication fingerprint.
`authors = []` models both `None` and an empty list (both falsy). -/
def generate_paper_hash (title : String) (authors : List String) : String :=
  let ct := (clean_title title).data
  if authors ≠ [] then
    let processed := (authors.filter (fun a => a ≠ "")).map pyLowerStrip
    let sortedA := List.insertionSort (fun a b : String => a ≤ b) processed
    md5hex (String.mk (ct ++ '_' :: (String.join sortedA).data))
  else md5hex (String.mk ct)

/-! ### General list and stripping lemmas -/

/-- Dropping while over an append whose first part wholly satisfies `p`. -/
theorem dropWhile_append_all {α : Type} {p : α → Bool} {l₁ l₂ : List α}
    (h : l₁.all p = true) : (l₁ ++ l₂).dropWhile p = l₂.dropWhile p := by
  induction l₁ with
  | nil => rfl
  | cons a t ih =>
    simp only [List.all_cons, Bool.and_eq_true] at h
    simp only [List.cons_append, List.dropWhile_cons, h.1, if_true]
    exact ih h.2

/-- Dropping while over an append whose first part survives partially. -/
theorem dropWhile_append_pos {α : Type} {p : α → Bool} {l₁ l₂ : List α}
    (h : l₁.dropWhile p ≠ []) : (l₁ ++ l₂).dropWhile p = l₁.dropWhile p ++ l₂ := by
  induction l₁ with
  | nil => exact absurd rfl h
  | cons a t ih =>
    by_cases hpa : p a = true
    · simp only [List.dropWhile_cons, hpa, if_true] at h ⊢
      simp only [List.cons_append, List.dropWhile_cons, hpa, if_true]
      exact ih h
    · rw [Bool.not_eq_true] at hpa
      simp [List.dropWhile_cons, hpa]

/-- Taking while over an append whose first part wholly satisfies `p`. -/
theorem takeWhile_append_all {α : Type} {p : α → Bool} {l₁ l₂ : List α}
    (h : l₁.all p = true) : (l₁ ++ l₂).takeWhile p = l₁ ++ l₂.takeWhile p := by
  induction l₁ with
  | nil => rfl
  | cons a t ih =>
    simp only [List.all_cons, Bool.and_eq_true] at h
    simp only [List.cons_append, List.takeWhile_cons, h.1, if_true, ih h.2]

/-- A list containing an element that fails `p` does not drop to nil. -/
theorem dropWhile_ne_nil_of_mem {α : Type} {p : α → Bool} {l : List α} {x : α}
    (hx : x ∈ l) (hpx : p x = false) : l.dropWhile p ≠ [] := by
  induction l with
  | nil => cases hx
  | cons a t ih =>
    by_cases hpa : p a = true
    · simp only [List.dropWhile_cons, hpa, if_true]
      rcases List.mem_cons.mp hx with rfl | hx'
      · rw [hpa] at hpx; cases hpx
      · exact ih hx'
    · simp only [List.dropWhile_cons, hpa, if_false]
      exact List.cons_ne_nil a t

/-- `dropWhile` is idempotent. -/
theorem dropWhile_idem {α : Type} {p : α → Bool} {l : List α} :
    (l.dropWhile p).dropWhile p = l.dropWhile p := by
  cases h : l.dropWhile p with
  | nil => rfl
  | cons c r =>
    have hc : p c = false := by
      have := List.head_dropWhile_not p l (by simp [h])
      simpa [h] using this
    simp [List.dropWhile_cons, hc]

/-- `rstrip` of nil. -/
theorem rstrip_nil : rstrip [] = [] := rfl

/-- `rstrip` is idempotent. -/
theorem rstrip_idem (l : List Char) : rstrip (rstrip l) = rstrip l := by
  simp only [rstrip, List.reverse_reverse]
  rw [dropWhile_idem]

/-- `rstrip` distributes past a head character when the tail holds a
non-whitespace character. -/
theorem rstrip_cons_pos {c : Char} {u : List Char}
    (h : ∃ x ∈ u, isWS x = false) : rstrip (c :: u) = c :: rstrip u := by
  obtain ⟨x, hx, hpx⟩ := h
  have hne : u.reverse.dropWhile isWS ≠ [] :=
    dropWhile_ne_nil_of_mem (List.mem_reverse.mpr hx) hpx
  simp only [rstrip, List.reverse_cons]
  rw [dropWhile_append_pos hne, List.reverse_append]
  rfl

/-- `rstrip` of a non-whitespace head followed by all-whitespace tail. -/
theorem rstrip_cons_ws {c : Char} {u : List Char}
    (hu : u.all isWS = true) (hc : isWS c = false) : rstrip (c :: u) = [c] := by
  simp only [rstrip, List.reverse_cons]
  rw [dropWhile_append_all (by simpa [List.all_reverse] using hu)]
  simp [List.dropWhile_cons, hc]

/-- `rstrip` keeps a non-whitespace head. -/
theorem rstrip_head {c : Char} {u : List Char} (hc : isWS c = false) :
    ∃ w, rstrip (c :: u) = c :: w := by
  by_cases hu : u.all isWS = true
  · exact ⟨[], rstrip_cons_ws hu hc⟩
  · have : ∃ x ∈ u, isWS x = false := by
      rcases List.all_eq_true.not.mp hu with h
      push_neg at h
      obtain ⟨x, hx, hpx⟩ := h
      exact ⟨x, hx, by simpa using hpx⟩
    exact ⟨rstrip u, rstrip_cons_pos this⟩

/-- `pyStrip` of a line with a non-whitespace head. -/
theorem pyStrip_cons_no_ws {c : Char} {u : List Char} (hc : isWS c = false) :
    pyStrip (c :: u) = rstrip (c :: u) := by
  simp [pyStrip, List.dropWhile_cons, hc]

/-- `pyStrip` is idempotent. -/
theorem pyStrip_idem (l : List Char) : pyStrip (pyStrip l) = pyStrip l := by
  cases h : l.dropWhile isWS with
  | nil => simp [pyStrip, h, rstrip_nil]
  | cons c r =>
    have hc : isWS c = false := by
      have := List.head_dropWhile_not isWS l (by simp [h])
      simpa [h] using this
    have h1 : pyStrip l = rstrip (c :: r) := by simp [pyStrip, h]
    obtain ⟨w, hw⟩ := rstrip_head (u := r) hc
    rw [h1, hw, pyStrip_cons_no_ws hc, ← hw, rstrip_idem, ← h1, h1]

/-- Membership in `rstrip`. -/
theorem mem_of_mem_rstrip {l : List Char} {c : Char} (h : c ∈ rstrip l) : c ∈ l := by
  simp only [rstrip, List.mem_reverse] at h
  exact List.mem_reverse.mp ((List.dropWhile_sublist isWS).subset h)

/-- Membership in `pyStrip`. -/
theorem mem_of_mem_pyStrip {l : List Char} {c : Char} (h : c ∈ pyStrip l) : c ∈ l :=
  (List.dropWhile_sublist isWS).subset (mem_of_mem_rstrip h)



/-! ### Rule-a and rule-b extraction lemmas -/

/-- Unfolding equation for `matchAGo` on a cons. -/
theorem matchAGo_cons (acc : List Char) (c : Char) (r : List Char) :
    matchAGo acc (c :: r)
      = if c = '\n' then none
        else if tailMatchA r then some ((c :: acc).reverse)
        else matchAGo (c :: acc) r := by
  rw [matchAGo]

/-- Unfolding equation for `matchBGo` on a cons. -/
theorem matchBGo_cons (acc : List Char) (c : Char) (r : List Char) :
    matchBGo acc (c :: r)
      = if c = '\n' then none
        else if c = ']' && !acc.isEmpty && parenAfter r then some acc.reverse
        else matchBGo (c :: acc) r := by
  rw [matchBGo]

/-- Unfolding equation for `matchB` on a cons. -/
theorem matchB_cons (c : Char) (r : List Char) :
    matchB (c :: r)
      = if c = '[' then Option.elim (matchBGo [] r) (matchB r) some
        else matchB r := by
  rw [matchB]

/-- A `]` is always reachable in `b ++ [']']` when `b` has no newline. -/
theorem existsCloseBeforeNl_append {b : List Char} (hb : '\n' ∉ b) :
    existsCloseBeforeNl (b ++ [']']) = true := by
  induction b with
  | nil => rfl
  | cons c r ih =>
    by_cases hc : c = ']'
    · simp [existsCloseBeforeNl, hc]
    · have hcn : c ≠ '\n' := fun h => hb (h ▸ List.mem_cons_self c r)
      simp only [List.cons_append, existsCloseBeforeNl, hc, if_false, hcn]
      exact ih (fun h => hb (List.mem_cons_of_mem c h))

/-- The deterministic tail of rule a succeeds after an all-whitespace run. -/
theorem tailMatchA_true {par brack w : List Char} (hw : w.all isWS = true)
    (hp1 : par ≠ []) (hp2 : ')' ∉ par) (hb : '\n' ∉ brack) :
    tailMatchA (w ++ ('(' :: (par ++ (')' :: (' ' :: ('[' :: (brack ++ [']'])))))))
      = true := by
  have hop : isWS '(' = false := by decide
  have hdrop :
      (w ++ ('(' :: (par ++ (')' :: (' ' :: ('[' :: (brack ++ [']']))))))).dropWhile isWS
        = '(' :: (par ++ (')' :: (' ' :: ('[' :: (brack ++ [']']))))) := by
    rw [dropWhile_append_all hw, List.dropWhile_cons, hop]
    simp
  have hpar : par.all (fun x => x ≠ ')') = true :=
    List.all_eq_true.mpr (fun x hx => decide_eq_true (fun h => hp2 (h ▸ hx)))
  have htake : (par ++ (')' :: (' ' :: ('[' :: (brack ++ [']']))))).takeWhile
      (fun x => x ≠ ')') = par := by
    rw [takeWhile_append_all hpar, List.takeWhile_cons]
    simp
  have hdrop2 : (par ++ (')' :: (' ' :: ('[' :: (brack ++ [']']))))).dropWhile
      (fun x => x ≠ ')') = ')' :: (' ' :: ('[' :: (brack ++ [']']))) := by
    rw [dropWhile_append_all hpar, List.dropWhile_cons]
    simp
  have hne : par.isEmpty = false := by
    cases par with
    | nil => exact absurd rfl hp1
    | cons a t => rfl
  have hdrop3 : (' ' :: ('[' :: (brack ++ [']']))).dropWhile isWS
      = '[' :: (brack ++ [']']) := by
    rw [List.dropWhile_cons]
    simp only [show isWS ' ' = true by decide, if_true]
    rw [List.dropWhile_cons]
    simp [show isWS '[' = false by decide]
  unfold tailMatchA
  rw [hdrop]
  simp only [parenBody, if_pos rfl, htake, hdrop2, hne, Bool.false_eq_true, if_false]
  simp only [brackTail, hdrop3, brackOpen, if_pos rfl]
  exact existsCloseBeforeNl_append hb

/-- The deterministic tail of rule a fails when the run before the rest
holds a non-whitespace character other than `(`. -/
theorem tailMatchA_false {v rest : List Char}
    (hv : ∃ x ∈ v, isWS x = false) (hv2 : '(' ∉ v) :
    tailMatchA (v ++ rest) = false := by
  obtain ⟨x, hx, hpx⟩ := hv
  have hne : v.dropWhile isWS ≠ [] := dropWhile_ne_nil_of_mem hx hpx
  have hsplit : (v ++ rest).dropWhile isWS = v.dropWhile isWS ++ rest :=
    dropWhile_append_pos hne
  cases hd : v.dropWhile isWS with
  | nil => exact absurd hd hne
  | cons e v'' =>
    have he : e ∈ v := (List.dropWhile_sublist isWS).subset (hd ▸ List.mem_cons_self e v'')
    have hep : e ≠ '(' := fun h => hv2 (h ▸ he)
    unfold tailMatchA
    rw [hsplit, hd]
    simp [parenBody, hep]

/-- The rule-a scanner applied to a group part `u` followed by the
parenthetical/bracket tail: the group becomes `u` without its trailing
whitespace run. -/
theorem matchAGo_main {par brack : List Char}
    (hp1 : par ≠ []) (hp2 : ')' ∉ par) (hb : '\n' ∉ brack) :
    ∀ (u acc : List Char), '\n' ∉ u → '(' ∉ u → (∃ x ∈ u, isWS x = false) →
    matchAGo acc (u ++ ('(' :: (par ++ (')' :: (' ' :: ('[' :: (brack ++ [']'])))))))
      = some (acc.reverse ++ rstrip u) := by
  intro u
  induction u with
  | nil => intro acc _ _ hex; obtain ⟨x, hx, _⟩ := hex; cases hx
  | cons d u' ih =>
    intro acc hnl hpar hex
    have hd : d ≠ '\n' := fun h => hnl (h ▸ List.mem_cons_self d u')
    rw [List.cons_append, matchAGo_cons, if_neg hd]
    by_cases hall : u'.all isWS = true
    · have hdws : isWS d = false := by
        obtain ⟨x, hx, hpx⟩ := hex
        rcases List.mem_cons.mp hx with rfl | hx'
        · exact hpx
        · rw [List.all_eq_true.mp hall x hx'] at hpx; cases hpx
      have htm := tailMatchA_true (w := u') hall hp1 hp2 hb
      rw [if_pos htm, rstrip_cons_ws hall hdws]
      simp
    · have hex' : ∃ x ∈ u', isWS x = false := by
        rcases List.all_eq_true.not.mp hall with h
        push_neg at h
        obtain ⟨x, hx, hpx⟩ := h
        exact ⟨x, hx, by simpa using hpx⟩
      have htm : tailMatchA
          (u' ++ ('(' :: (par ++ (')' :: (' ' :: ('[' :: (brack ++ [']'])))))))
          = false := tailMatchA_false hex' (fun h => hpar (List.mem_cons_of_mem d h))
      rw [if_neg (by simp [htm])]
      rw [ih (d :: acc) (fun h => hnl (List.mem_cons_of_mem d h))
            (fun h => hpar (List.mem_cons_of_mem d h)) hex']
      rw [rstrip_cons_pos hex']
      simp

/-- The `](...)` tail of rule b succeeds on a nonempty `)`-free URL. -/
theorem parenAfter_true {url : List Char} (post : List Char)
    (hu1 : url ≠ []) (hu2 : ')' ∉ url) :
    parenAfter ('(' :: (url ++ (')' :: post))) = true := by
  have hurl : url.all (fun x => x ≠ ')') = true :=
    List.all_eq_true.mpr (fun x hx => decide_eq_true (fun h => hu2 (h ▸ hx)))
  have htake : (url ++ (')' :: post)).takeWhile (fun x => x ≠ ')') = url := by
    rw [takeWhile_append_all hurl, List.takeWhile_cons]
    simp
  have hdrop : (url ++ (')' :: post)).dropWhile (fun x => x ≠ ')') = ')' :: post := by
    rw [dropWhile_append_all hurl, List.dropWhile_cons]
    simp
  simp only [parenAfter, if_pos rfl, htake, hdrop]
  cases url with
  | nil => exact absurd rfl hu1
  | cons a t => rfl

/-- The rule-b lazy group scan across a `]`-free, newline-free label. -/
theorem matchBGo_main {url post : List Char} (hu1 : url ≠ []) (hu2 : ')' ∉ url) :
    ∀ (lab acc : List Char), ']' ∉ lab → '\n' ∉ lab → (acc ≠ [] ∨ lab ≠ []) →
    matchBGo acc (lab ++ (']' :: ('(' :: (url ++ (')' :: post)))))
      = some (acc.reverse ++ lab) := by
  intro lab
  induction lab with
  | nil =>
    intro acc _ _ hne
    have hacc : acc ≠ [] := by
      rcases hne with h | h
      · exact h
      · exact absurd rfl h
    have haccE : acc.isEmpty = false := by
      cases acc with
      | nil => exact absurd rfl hacc
      | cons a t => rfl
    have hpa := parenAfter_true post hu1 hu2
    rw [List.nil_append, matchBGo_cons,
        if_neg (by decide : ¬ (']' : Char) = '\n'),
        if_pos (by simp [haccE, hpa])]
    simp
  | cons d lab' ih =>
    intro acc hl2 hl3 _
    have hd : d ≠ '\n' := fun h => hl3 (h ▸ List.mem_cons_self d lab')
    have hdbr : d ≠ ']' := fun h => hl2 (h ▸ List.mem_cons_self d lab')
    rw [List.cons_append, matchBGo_cons, if_neg hd, if_neg (by simp [hdbr])]
    rw [ih (d :: acc) (fun h => hl2 (List.mem_cons_of_mem d h))
          (fun h => hl3 (List.mem_cons_of_mem d h)) (Or.inl (List.cons_ne_nil d acc))]
    simp

/-- Rule b on a line `pre [label](url) post` with an unambiguous
decomposition: the label is extracted. -/
theorem matchB_main {pre label url post : List Char} (hpre : '[' ∉ pre)
    (hl1 : label ≠ []) (hl2 : ']' ∉ label) (hl3 : '\n' ∉ label)
    (hu1 : url ≠ []) (hu2 : ')' ∉ url) :
    matchB (pre ++ ('[' :: (label ++ (']' :: ('(' :: (url ++ (')' :: post)))))))
      = some label := by
  induction pre with
  | nil =>
    rw [List.nil_append, matchB_cons, if_pos rfl,
        matchBGo_main hu1 hu2 label [] hl2 hl3 (Or.inr hl1)]
    rfl
  | cons a t ih =>
    have ha : a ≠ '[' := fun h => hpre (h ▸ List.mem_cons_self a t)
    rw [List.cons_append, matchB_cons, if_neg ha]
    exact ih (fun h => hpre (List.mem_cons_of_mem a h))

/-! ### Header-detection lemmas -/

/-- A successful case-insensitive prefix match pins down the head character. -/
theorem ciPrefixDrop_head (p0 : Char) (p l r : List Char)
    (h : ciPrefixDrop (p0 :: p) l = some r) :
    ∃ c l', l = c :: l' ∧ c.toLower = p0 := by
  unfold ciPrefixDrop at h
  by_cases hc : (l.take (p0 :: p).length).map Char.toLower = p0 :: p
  · cases l with
    | nil => simp at hc
    | cons c l' =>
      refine ⟨c, l', rfl, ?_⟩
      rw [List.length_cons, List.take_succ_cons, List.map_cons] at hc
      have := congrArg List.head? hc
      simpa using this
  · rw [if_neg hc] at h
    cases h

/-- A name pattern whose first (lowercased) letter is not `t` cannot match
a line whose post-`#`/whitespace remainder starts with a `t`. -/
theorem matchHeaderName_false_head (name : String) (l r2 : List Char)
    (x : Char) (r2' : List Char) (n0 : Char) (nr : List Char)
    (hA : afterHashWS l = some r2) (hr : r2 = x :: r2') (hx : x.toLower = 't')
    (hname : name.data.map Char.toLower = n0 :: nr) (hne : n0 ≠ 't') :
    matchHeaderName name l = false := by
  unfold matchHeaderName
  rw [hA, Option.some_bind, hname]
  cases hcp : ciPrefixDrop (n0 :: nr) r2 with
  | none => rfl
  | some rest =>
    obtain ⟨c, l', hl, hcl⟩ := ciPrefixDrop_head n0 nr r2 rest hcp
    rw [hr] at hl
    injection hl with h1 _
    exact absurd (by rw [← hcl, ← h1, hx]) hne

/-- A line matching the Test-of-Time pattern has the shape `#`, hash/space
run, then a (case-insensitive) `t`. -/
theorem matchTot_shape {l : List Char} (h : matchTot l = true) :
    ∃ r2 x r2', afterHashWS l = some r2 ∧ r2 = x :: r2' ∧ x.toLower = 't' := by
  unfold matchTot at h
  cases hA : afterHashWS l with
  | none =>
    rw [hA] at h
    simp only [Option.none_bind, Option.elim_none] at h
    cases h
  | some r2 =>
    rw [hA, Option.some_bind] at h
    cases hcp : ciPrefixDrop "test".data r2 with
    | none =>
      rw [hcp] at h
      simp only [Option.none_bind, Option.elim_none] at h
      cases h
    | some a =>
      obtain ⟨c, l', hl, hcl⟩ := ciPrefixDrop_head 't' "est".data r2 a hcp
      exact ⟨r2, c, l', rfl, hl, hcl⟩

/-- The header loop skips a section whose rule does not match. -/
theorem headerForAux_cons_false {n : String} {ns : List String} {l : List Char}
    (h : sectionRule n l = false) :
    headerForAux (n :: ns) l = headerForAux ns l := by
  conv_lhs => unfold headerForAux
  rw [h]
  simp

/-- Any line matching the Test-of-Time semantic pattern opens the
`Test-of-Time-Papers` section: none of the nine literal name patterns can
match it, and the section loop reaches the special case. -/
theorem headerFor_of_matchTot {l : List Char} (h : matchTot l = true) :
    headerFor l = some "Test-of-Time-Papers" := by
  obtain ⟨r2, x, r2', hA, hr, hx⟩ := matchTot_shape h
  have h1 := matchHeaderName_false_head "CVPR" l r2 x r2' 'c' "vpr".data
    hA hr hx (by decide) (by decide)
  have h2 := matchHeaderName_false_head "ICLR" l r2 x r2' 'i' "clr".data
    hA hr hx (by decide) (by decide)
  have h3 := matchHeaderName_false_head "NeurIPS" l r2 x r2' 'n' "eurips".data
    hA hr hx (by decide) (by decide)
  have h4 := matchHeaderName_false_head "ICCV" l r2 x r2' 'i' "ccv".data
    hA hr hx (by decide) (by decide)
  have h5 := matchHeaderName_false_head "ICML" l r2 x r2' 'i' "cml".data
    hA hr hx (by decide) (by decide)
  have h6 := matchHeaderName_false_head "ECCV" l r2 x r2' 'e' "ccv".data
    hA hr hx (by decide) (by decide)
  have h7 := matchHeaderName_false_head "AAAI" l r2 x r2' 'a' "aai".data
    hA hr hx (by decide) (by decide)
  have h8 := matchHeaderName_false_head "WACV" l r2 x r2' 'w' "acv".data
    hA hr hx (by decide) (by decide)
  have h9 := matchHeaderName_false_head "BMVC" l r2 x r2' 'b' "mvc".data
    hA hr hx (by decide) (by decide)
  unfold headerFor sectionNames
  rw [headerForAux_cons_false (by unfold sectionRule; rw [if_neg (by decide)]; exact h1),
    headerForAux_cons_false (by unfold sectionRule; rw [if_neg (by decide)]; exact h2),
    headerForAux_cons_false (by unfold sectionRule; rw [if_neg (by decide)]; exact h3),
    headerForAux_cons_false (by unfold sectionRule; rw [if_neg (by decide)]; exact h4),
    headerForAux_cons_false (by unfold sectionRule; rw [if_neg (by decide)]; exact h5),
    headerForAux_cons_false (by unfold sectionRule; rw [if_neg (by decide)]; exact h6),
    headerForAux_cons_false (by unfold sectionRule; rw [if_neg (by decide)]; exact h7),
    headerForAux_cons_false (by unfold sectionRule; rw [if_neg (by decide)]; exact h8),
    headerForAux_cons_false (by unfold sectionRule; rw [if_neg (by decide)]; exact h9)]
  unfold headerForAux
  rw [if_pos (show sectionRule "Test-of-Time-Papers" l = true by
    unfold sectionRule; rw [if_pos rfl]; exact h)]

/-- If a line does not begin with `#` (after stripping), no section pattern
matches it. -/
theorem headerForAux_none {l : List Char} (hA : afterHashWS l = none) :
    ∀ ns, headerForAux ns l = none := by
  have hm1 : matchTot l = false := by
    unfold matchTot
    rw [hA, Option.none_bind, Option.none_bind, Option.none_bind, Option.none_bind,
      Option.none_bind, Option.none_bind, Option.none_bind, Option.elim_none]
  have hm2 : ∀ n, matchHeaderName n l = false := by
    intro n
    unfold matchHeaderName
    rw [hA, Option.none_bind, Option.elim_none]
  have hm : ∀ n, sectionRule n l = false := by
    intro n
    unfold sectionRule
    by_cases hn : n = "Test-of-Time-Papers"
    · rw [if_pos hn]; exact hm1
    · rw [if_neg hn]; exact hm2 n
  intro ns
  induction ns with
  | nil => rfl
  | cons n ns ih =>
    rw [headerForAux_cons_false (hm n)]
    exact ih

/-- `headerFor` of a non-`#` line is `none`. -/
theorem headerFor_none {l : List Char} (hA : afterHashWS l = none) :
    headerFor l = none := headerForAux_none hA sectionNames

/-- Any section returned by the header loop is one of the configured names. -/
theorem headerForAux_mem {ns : List String} {l : List Char} {s : String}
    (h : headerForAux ns l = some s) : s ∈ ns := by
  induction ns with
  | nil => cases h
  | cons n ns ih =>
    by_cases hc : sectionRule n l = true
    · unfold headerForAux at h
      rw [if_pos hc] at h
      injection h with h'
      exact h' ▸ List.mem_cons_self n ns
    · rw [headerForAux_cons_false (Bool.not_eq_true _ ▸ hc)] at h
      exact List.mem_cons_of_mem n (ih h)

/-- Any section returned by `headerFor` is configured. -/
theorem headerFor_mem {l : List Char} {s : String}
    (h : headerFor l = some s) : s ∈ sectionNames := headerForAux_mem h

/-! ### Authors-line and no-header lemmas -/

/-- A line matching `^authors?:` (on its lowercased form) starts with an
`a` (case-insensitively). -/
theorem authors_shape {l : List Char}
    (h : authorsLabel (l.map Char.toLower) = true) :
    ∃ c rest, l = c :: rest ∧ c.toLower = 'a' := by
  unfold authorsLabel at h
  have hlow : ∃ t, l.map Char.toLower = 'a' :: t := by
    simp only [Bool.or_eq_true] at h
    rcases h with h1 | h1
    · obtain ⟨t, ht⟩ := List.isPrefixOf_iff_prefix.mp h1
      refine ⟨"uthors:".data ++ t, ?_⟩
      rw [← ht]
      rfl
    · obtain ⟨t, ht⟩ := List.isPrefixOf_iff_prefix.mp h1
      refine ⟨"uthor:".data ++ t, ?_⟩
      rw [← ht]
      rfl
  obtain ⟨t, ht⟩ := hlow
  cases l with
  | nil => simp at ht
  | cons c rest =>
    rw [List.map_cons] at ht
    injection ht with h1 _
    exact ⟨c, rest, rfl, h1⟩

/-- A line matching `^authors?:` is never a candidate. -/
theorem is_paper_title_false_of_authors {l : List Char}
    (h : authorsLabel ((pyStrip l).map Char.toLower) = true) :
    is_paper_title_line l = false := by
  have hne : pyStrip l ≠ [] := by
    intro hnil
    rw [hnil] at h
    exact absurd h (by decide)
  cases hL : pyStrip l with
  | nil => exact absurd hL hne
  | cons c r =>
    have hskip : skipMatch (c :: r) = true := by
      rw [← hL]
      simp only [skipMatch]
      rw [h]
      simp
    simp only [is_paper_title_line]
    rw [hL]
    simp [hskip]

/-- A line matching `^authors?:` leaves the parser state untouched: it is
not a header and not a candidate. -/
theorem authors_parseStep (line : List Char) (cur : Option String)
    (m : List (String × List Paper))
    (h : authorsLabel ((pyStrip line).map Char.toLower) = true) :
    parseStep (cur, m) line = (cur, m) := by
  obtain ⟨c, rest, hL, hc⟩ := authors_shape h
  have hnh : c ≠ '#' := by
    intro hh
    rw [hh] at hc
    exact absurd hc (by decide)
  have hA : afterHashWS (pyStrip line) = none := by
    rw [hL]
    simp only [afterHashWS]
    rw [if_neg hnh]
  have hH : headerFor (pyStrip line) = none := headerFor_none hA
  have hT : is_paper_title_line (pyStrip line) = false := by
    apply is_paper_title_false_of_authors
    rw [pyStrip_idem]
    exact h
  cases cur with
  | none =>
    simp only [parseStep]
    rw [hH, Option.elim_none]
    rfl
  | some s =>
    simp only [parseStep]
    rw [hH, Option.elim_none]
    simp only [Option.elim_some]
    rw [if_neg (by simp [hT])]

/-- A document without recognized headers leaves the fold state untouched. -/
theorem foldl_parseStep_no_header {lines : List (List Char)}
    (h : ∀ l ∈ lines, headerFor (pyStrip l) = none) :
    ∀ m, lines.foldl parseStep (none, m) = (none, m) := by
  induction lines with
  | nil => intro m; rfl
  | cons line rest ih =>
    intro m
    rw [List.foldl_cons]
    have hstep : parseStep (none, m) line = (none, m) := by
      simp only [parseStep]
      rw [h line (List.mem_cons_self line rest), Option.elim_none]
      rfl
    rw [hstep]
    exact ih (fun l hl => h l (List.mem_cons_of_mem line hl)) m

/-! ### Record-counting lemmas -/

/-- `totalRecords` of a cons. -/
theorem totalRecords_cons (kv : String × List Paper) (m : List (String × List Paper)) :
    totalRecords (kv :: m) = kv.2.length + totalRecords m := by
  unfold totalRecords
  rw [List.map_cons, List.sum_cons]

/-- Appending under an absent key changes nothing. -/
theorem appendTo_not_mem {m : List (String × List Paper)} {k : String} {p : Paper}
    (h : (m.map Prod.fst).count k = 0) : appendTo m k p = m := by
  induction m with
  | nil => rfl
  | cons kv rest ih =>
    rw [List.map_cons, List.count_cons] at h
    by_cases hk : kv.1 = k
    · simp [hk] at h
    · have hc : (rest.map Prod.fst).count k = 0 := by simpa [hk] using h
      show (if kv.1 = k then (kv.1, kv.2 ++ [p]) else kv) :: appendTo rest k p
          = kv :: rest
      rw [if_neg hk, ih hc]

/-- Appending under a key occurring exactly once adds exactly one record. -/
theorem totalRecords_appendTo {m : List (String × List Paper)} {k : String} {p : Paper}
    (h : (m.map Prod.fst).count k = 1) :
    totalRecords (appendTo m k p) = totalRecords m + 1 := by
  induction m with
  | nil => simp [totalRecords] at h
  | cons kv rest ih =>
    rw [List.map_cons, List.count_cons] at h
    by_cases hk : kv.1 = k
    · have hc : (rest.map Prod.fst).count k = 0 := by
        rw [hk] at h
        simp at h
        omega
      show totalRecords ((if kv.1 = k then (kv.1, kv.2 ++ [p]) else kv)
          :: appendTo rest k p) = totalRecords (kv :: rest) + 1
      rw [if_pos hk, appendTo_not_mem hc, totalRecords_cons, totalRecords_cons]
      simp only [List.length_append, List.length_cons, List.length_nil]
      omega
    · have hc : (rest.map Prod.fst).count k = 1 := by simpa [hk] using h
      show totalRecords ((if kv.1 = k then (kv.1, kv.2 ++ [p]) else kv)
          :: appendTo rest k p) = totalRecords (kv :: rest) + 1
      rw [if_neg hk, totalRecords_cons, totalRecords_cons, ih hc]
      omega

/-- `appendTo` preserves the key sequence. -/
theorem appendTo_map_fst (m : List (String × List Paper)) (k : String) (p : Paper) :
    (appendTo m k p).map Prod.fst = m.map Prod.fst := by
  induction m with
  | nil => rfl
  | cons kv rest ih =>
    show ((if kv.1 = k then (kv.1, kv.2 ++ [p]) else kv) :: appendTo rest k p).map
        Prod.fst = kv.1 :: rest.map Prod.fst
    rw [List.map_cons, ih]
    by_cases hk : kv.1 = k
    · rw [if_pos hk]
    · rw [if_neg hk]

/-- The parse fold preserves the key sequence of the accumulator. -/
theorem map_fst_foldl_parseStep :
    ∀ (lines : List (List Char)) (cur : Option String)
      (m : List (String × List Paper)),
    ((lines.foldl parseStep (cur, m)).2).map Prod.fst = m.map Prod.fst := by
  intro lines
  induction lines with
  | nil => intro cur m; rfl
  | cons line rest ih =>
    intro cur m
    rw [List.foldl_cons]
    cases hh : headerFor (pyStrip line) with
    | some s =>
      have hstep : parseStep (cur, m) line = (some s, m) := by
        simp only [parseStep]
        rw [hh, Option.elim_some]
      rw [hstep, ih]
    | none =>
      cases cur with
      | none =>
        have hstep : parseStep (none, m) line = (none, m) := by
          simp only [parseStep]
          rw [hh, Option.elim_none]
          rfl
        rw [hstep, ih]
      | some s =>
        by_cases ht : is_paper_title_line (pyStrip line) = true
        · by_cases hf : finalValid (extractChars (pyStrip line)) = true
          · have hstep : parseStep (some s, m) line = (some s, appendTo m s
                (Paper.mk (String.mk (extractChars (pyStrip line))) s
                  (String.mk line))) := by
              simp only [parseStep]
              rw [hh, Option.elim_none]
              simp only [Option.elim_some]
              rw [if_pos ht, if_pos hf]
            rw [hstep, ih, appendTo_map_fst]
          · have hstep : parseStep (some s, m) line = (some s, m) := by
              simp only [parseStep]
              rw [hh, Option.elim_none]
              simp only [Option.elim_some]
              rw [if_pos ht, if_neg hf]
            rw [hstep, ih]
        · have hstep : parseStep (some s, m) line = (some s, m) := by
            simp only [parseStep]
            rw [hh, Option.elim_none]
            simp only [Option.elim_some]
            rw [if_neg ht]
          rw [hstep, ih]

/-- Unfolding equation for `countAccept` on a cons. -/
theorem countAccept_cons (cur : Option String) (line : List Char)
    (rest : List (List Char)) :
    countAccept cur (line :: rest)
      = Option.elim (headerFor (pyStrip line))
          (Option.elim cur (countAccept cur rest) (fun _ =>
            (if is_paper_title_line (pyStrip line)
                && finalValid (extractChars (pyStrip line)) then 1 else 0)
              + countAccept cur rest))
          (fun s => countAccept (some s) rest) := by
  simp only [countAccept]

/-- The record total of the parse fold equals the starting total plus the
number of accepted candidate lines, provided the accumulator keys are
exactly the configured sections. -/
theorem totalRecords_foldl :
    ∀ (lines : List (List Char)) (cur : Option String)
      (m : List (String × List Paper)),
    m.map Prod.fst = sectionNames → (∀ s, cur = some s → s ∈ sectionNames) →
    totalRecords ((lines.foldl parseStep (cur, m)).2)
      = totalRecords m + countAccept cur lines := by
  intro lines
  induction lines with
  | nil => intro cur m _ _; simp [countAccept]
  | cons line rest ih =>
    intro cur m hm hcur
    rw [List.foldl_cons, countAccept_cons]
    cases hh : headerFor (pyStrip line) with
    | some s =>
      have hstep : parseStep (cur, m) line = (some s, m) := by
        simp only [parseStep]
        rw [hh, Option.elim_some]
      rw [hstep, Option.elim_some]
      exact ih (some s) m hm
        (fun s' hs' => by injection hs' with h'; exact h' ▸ headerFor_mem hh)
    | none =>
      rw [Option.elim_none]
      cases cur with
      | none =>
        have hstep : parseStep (none, m) line = (none, m) := by
          simp only [parseStep]
          rw [hh, Option.elim_none]
          rfl
        rw [hstep, Option.elim_none]
        exact ih none m hm (fun s' hs' => by cases hs')
      | some s =>
        have hs : s ∈ sectionNames := hcur s rfl
        have hcount1 : (m.map Prod.fst).count s = 1 := by
          rw [hm]
          exact List.count_eq_one_of_mem (by decide) hs
        rw [Option.elim_some]
        by_cases hc : (is_paper_title_line (pyStrip line)
            && finalValid (extractChars (pyStrip line))) = true
        · have ht : is_paper_title_line (pyStrip line) = true :=
            (Bool.and_eq_true _ _ ▸ hc).1
          have hf : finalValid (extractChars (pyStrip line)) = true :=
            (Bool.and_eq_true _ _ ▸ hc).2
          have hstep : parseStep (some s, m) line = (some s, appendTo m s
              (Paper.mk (String.mk (extractChars (pyStrip line))) s
                (String.mk line))) := by
            simp only [parseStep]
            rw [hh, Option.elim_none]
            simp only [Option.elim_some]
            rw [if_pos ht, if_pos hf]
          rw [hstep, if_pos hc]
          rw [ih (some s) _ (by rw [appendTo_map_fst]; exact hm) hcur]
          rw [totalRecords_appendTo hcount1]
          omega
        · have hstep : parseStep (some s, m) line = (some s, m) := by
            simp only [parseStep]
            rw [hh, Option.elim_none]
            simp only [Option.elim_some]
            by_cases ht : is_paper_title_line (pyStrip line) = true
            · have hf : ¬ finalValid (extractChars (pyStrip line)) = true := by
                intro hf
                exact hc (by rw [Bool.and_eq_true]; exact ⟨ht, hf⟩)
              rw [if_pos ht, if_neg hf]
            · rw [if_neg ht]
          rw [hstep, if_neg hc]
          rw [ih (some s) m hm hcur]
          omega

/-! ### Helpers for the extraction and filename claims -/

/-- `rstrip` keeps a list ending in a non-whitespace character. -/
theorem rstrip_append_single {Y : List Char} {e : Char} (he : isWS e = false) :
    rstrip (Y ++ [e]) = Y ++ [e] := by
  unfold rstrip
  simp only [List.reverse_append, List.reverse_singleton, List.singleton_append]
  rw [List.dropWhile_cons, he]
  simp

/-- Characters of the whitespace-collapse output are the replacement
character or non-whitespace characters of the input. -/
theorem collapseGo_mem {rep : Char} {c : Char} :
    ∀ (b : Bool) (l : List Char), c ∈ collapseGo rep b l →
    c = rep ∨ (c ∈ l ∧ isWS c = false) := by
  intro b l
  induction l generalizing b with
  | nil => intro h; cases h
  | cons d r ih =>
    intro h
    by_cases hd : isWS d = true
    · simp only [collapseGo, hd, if_true] at h
      rcases List.mem_append.mp h with h1 | h1
      · cases b with
        | true => simp at h1
        | false =>
          left
          simpa using h1
      · rcases ih true h1 with h2 | ⟨h2, h3⟩
        · exact Or.inl h2
        · exact Or.inr ⟨List.mem_cons_of_mem d h2, h3⟩
    · simp only [collapseGo, hd, if_false] at h
      rcases List.mem_cons.mp h with rfl | h1
      · exact Or.inr ⟨List.mem_cons_self c r,
          by rw [Bool.not_eq_true] at hd; exact hd⟩
      · rcases ih false h1 with h2 | ⟨h2, h3⟩
        · exact Or.inl h2
        · exact Or.inr ⟨List.mem_cons_of_mem d h2, h3⟩

/-- Every character of the sanitized core is non-whitespace and outside the
removed character class. -/
theorem sanitize_core_chars (title : String) :
    ∀ x ∈ collapseWith '_' (pyStrip ((title.data.filter
        (fun c => !decide (c ∈ badFileChars))).map
        (fun c => if c = '\n' || c = '\r' then ' ' else c))),
    isWS x = false ∧ x ∉ badFileChars := by
  intro x hx
  rcases collapseGo_mem false _ hx with h1 | ⟨h1, h2⟩
  · subst h1
    exact ⟨by decide, by decide⟩
  · refine ⟨h2, ?_⟩
    have hx2 := mem_of_mem_pyStrip h1
    obtain ⟨a, ha, hfa⟩ := List.mem_map.mp hx2
    by_cases hnr : (a = '\n' || a = '\r') = true
    · rw [if_pos hnr] at hfa
      rw [← hfa] at h2
      exact absurd h2 (by decide)
    · rw [if_neg hnr] at hfa
      subst hfa
      have hmem := List.mem_filter.mp ha
      simpa using hmem.2

/-! ### Claim theorems -/

set_option maxRecDepth 100000

/-- C1 counterexample: the empty document returns the empty mapping, so the
configured section name `CVPR` is absent from the result, contradicting the
claim's inclusion of the empty document. -/
theorem empty_doc_returns_empty_map :
    parse_papers_from_main_readme "" = [] ∧ ("CVPR" : String) ∈ sectionNames := by
  constructor
  · rfl
  · decide

/-- C1 (amended): every NON-empty document with zero recognized header
lines parses to the mapping binding each of the ten configured sections to
an empty sequence; the empty document instead returns the empty mapping. -/
theorem no_header_doc_all_sections_empty (content : String) (h1 : content ≠ "")
    (h2 : (splitLines content.data).all
      (fun l => (headerFor (pyStrip l)).isNone) = true) :
    parse_papers_from_main_readme content = initSections := by
  unfold parse_papers_from_main_readme
  rw [if_neg h1]
  have h2' : ∀ l ∈ splitLines content.data, headerFor (pyStrip l) = none := by
    intro l hl
    exact Option.isNone_iff_eq_none.mp (List.all_eq_true.mp h2 l hl)
  rw [foldl_parseStep_no_header h2' initSections]

/-- C1 witness: a concrete headerless document. -/
theorem no_header_doc_all_sections_empty_witness :
    ("just prose\nno headers in sight" : String) ≠ ""
    ∧ (splitLines ("just prose\nno headers in sight" : String).data).all
        (fun l => (headerFor (pyStrip l)).isNone) = true
    ∧ parse_papers_from_main_readme "just prose\nno headers in sight"
        = initSections :=
  ⟨by decide, by decide,
    no_header_doc_all_sections_empty "just prose\nno headers in sight"
      (by decide) (by decide)⟩

/-- C2 counterexample: on this document one line is classified as a paper
title line while CVPR is active, yet its extracted title (`Short`, length
five) fails final validation, so the parse result holds zero records — the
spec's invariant equating total records with classified lines fails. -/
theorem classified_count_mismatch :
    totalRecords (parse_papers_from_main_readme
        "#### CVPR\n[Short](http://x.com/aaaa)")
      ≠ classifiedCount "#### CVPR\n[Short](http://x.com/aaaa)" := by
  decide

/-- C2 (amended): the total number of records in the parse result equals
the number of lines classified as paper title lines while some section was
active AND whose extracted title passes final validation; and every record
lies under a configured section key. -/
theorem total_records_eq_accepted (content : String) :
    totalRecords (parse_papers_from_main_readme content) = acceptedCount content
    ∧ ∀ kv ∈ parse_papers_from_main_readme content, kv.1 ∈ sectionNames := by
  by_cases hc : content = ""
  · subst hc
    refine ⟨by decide, ?_⟩
    intro kv hkv
    simp [parse_papers_from_main_readme] at hkv
  · have hfst : (parse_papers_from_main_readme content).map Prod.fst
        = sectionNames := by
      unfold parse_papers_from_main_readme
      rw [if_neg hc, map_fst_foldl_parseStep]
      decide
    refine ⟨?_, ?_⟩
    · unfold parse_papers_from_main_readme acceptedCount
      rw [if_neg hc]
      rw [totalRecords_foldl (splitLines content.data) none initSections
        (by decide) (fun s hs => by cases hs)]
      rw [show totalRecords initSections = 0 by decide]
      omega
    · intro kv hkv
      rw [← hfst]
      exact List.mem_map_of_mem Prod.fst hkv

/-- C2 witness: the invariant at a concrete document, and a concrete record
whose key is configured. -/
theorem total_records_eq_accepted_witness :
    totalRecords (parse_papers_from_main_readme
        "#### CVPR\nAwesome Detection Method (CVPR 2023) [Paper]\n#### ICLR\n")
      = acceptedCount
        "#### CVPR\nAwesome Detection Method (CVPR 2023) [Paper]\n#### ICLR\n"
    ∧ ("CVPR" : String) ∈ sectionNames :=
  ⟨(total_records_eq_accepted
      "#### CVPR\nAwesome Detection Method (CVPR 2023) [Paper]\n#### ICLR\n").1,
   (total_records_eq_accepted
      "#### CVPR\nAwesome Detection Method (CVPR 2023) [Paper]\n#### ICLR\n").2
     ("CVPR", [Paper.mk "Awesome Detection Method" "CVPR"
        "Awesome Detection Method (CVPR 2023) [Paper]"]) (by decide)⟩

/-- C3: the example document parses to exactly one record with title
`Awesome Detection Method` under the CVPR key, an empty sequence under the
ICLR key, and empty sequences for all other configured sections. -/
theorem parse_cvpr_iclr_example :
    parse_papers_from_main_readme
        "#### CVPR\nAwesome Detection Method (CVPR 2023) [Paper]\n#### ICLR\n"
      = [("CVPR", [Paper.mk "Awesome Detection Method" "CVPR"
            "Awesome Detection Method (CVPR 2023) [Paper]"]),
         ("ICLR", []), ("NeurIPS", []), ("ICCV", []), ("ICML", []), ("ECCV", []),
         ("AAAI", []), ("WACV", []), ("BMVC", []), ("Test-of-Time-Papers", [])] := by
  decide

/-- C4: every line matching the "test of time papers" semantic header
pattern opens the section stored under the `Test-of-Time-Papers` key, and
on the example document the record is attributed to that key. -/
theorem tot_header_semantic_match :
    (∀ l : List Char, matchTot l = true →
      headerFor l = some "Test-of-Time-Papers")
    ∧ parse_papers_from_main_readme
        "### Test of Time Papers\nA Seminal Work on Vision (2015) [Paper]\n"
      = [("CVPR", []), ("ICLR", []), ("NeurIPS", []), ("ICCV", []), ("ICML", []),
         ("ECCV", []), ("AAAI", []), ("WACV", []), ("BMVC", []),
         ("Test-of-Time-Papers", [Paper.mk "A Seminal Work on Vision"
            "Test-of-Time-Papers" "A Seminal Work on Vision (2015) [Paper]"])] :=
  ⟨fun _ h => headerFor_of_matchTot h, by decide⟩

/-- C4 witness: a differently-phrased Test-of-Time header line. -/
theorem tot_header_semantic_match_witness :
    matchTot ("## Test Of Time Paper" : String).data = true
    ∧ headerFor ("## Test Of Time Paper" : String).data
        = some "Test-of-Time-Papers" :=
  ⟨by decide,
   tot_header_semantic_match.1 ("## Test Of Time Paper" : String).data (by decide)⟩

/-- C5: a candidate line of the form `<text> (<parenthetical>) [<bracketed>]`
(unambiguous decomposition: non-whitespace first character, no `(` or
newline in the text, nonempty `)`-free parenthetical, newline-free
bracketed segment) extracts to `<text>` trimmed and then cleaned — even
when the bracketed segment contains a markdown link, so rule a takes
precedence over the markdown-link rule. -/
theorem extract_paren_bracket_precedence (c : Char) (text par brack : List Char)
    (hc : isWS c = false) (ht1 : '(' ∉ c :: text) (ht2 : '\n' ∉ c :: text)
    (hp1 : par ≠ []) (hp2 : ')' ∉ par) (hb : '\n' ∉ brack) :
    extractChars ((c :: text)
        ++ ('(' :: (par ++ (')' :: (' ' :: ('[' :: (brack ++ [']'])))))))
      = cleanupTitle (pyStrip (c :: text)) := by
  have hex : ∃ x ∈ c :: text, isWS x = false := ⟨c, List.mem_cons_self c text, hc⟩
  have hA : matchA ((c :: text)
      ++ ('(' :: (par ++ (')' :: (' ' :: ('[' :: (brack ++ [']'])))))))
      = some (rstrip (c :: text)) := by
    unfold matchA
    rw [matchAGo_main hp1 hp2 hb (c :: text) [] ht2 ht1 hex]
    simp
  have hform : (c :: text)
      ++ ('(' :: (par ++ (')' :: (' ' :: ('[' :: (brack ++ [']'])))))) =
      ((c :: text) ++ ('(' :: (par ++ (')' :: (' ' :: ('[' :: brack)))))) ++ [']'] := by
    simp
  have hstrip : pyStrip ((c :: text)
      ++ ('(' :: (par ++ (')' :: (' ' :: ('[' :: (brack ++ [']'])))))))
      = (c :: text) ++ ('(' :: (par ++ (')' :: (' ' :: ('[' :: (brack ++ [']'])))))) := by
    rw [List.cons_append, pyStrip_cons_no_ws hc, ← List.cons_append, hform,
      rstrip_append_single (by decide)]
  unfold extractChars
  rw [hstrip]
  unfold rawTitle
  rw [hA, Option.elim_some]
  obtain ⟨w, hw⟩ := rstrip_head (u := text) hc
  rw [hw, pyStrip_cons_no_ws hc, ← hw, rstrip_idem, pyStrip_cons_no_ws hc]

/-- C5 witness: the `<text> (<conf year>) [<bracket>]` rule wins although
the line also contains the markdown link `[Link Label](http://x)`. -/
theorem extract_paren_bracket_precedence_witness :
    isWS 'M' = false
    ∧ extract_title_from_line "My Good Title (CVPR 2023) [[Link Label](http://x)]"
        = "My Good Title"
    ∧ containsSeq "[Link Label](http://x)".data
        ("My Good Title (CVPR 2023) [[Link Label](http://x)]" : String).data = true := by
  refine ⟨by decide, ?_, by decide⟩
  have h := extract_paren_bracket_precedence 'M' "y Good Title ".data
    "CVPR 2023".data "[Link Label](http://x)".data (by decide) (by decide)
    (by decide) (by decide) (by decide) (by decide)
  unfold extract_title_from_line
  rw [show ("My Good Title (CVPR 2023) [[Link Label](http://x)]" : String).data
      = ('M' :: "y Good Title ".data) ++ ('(' :: ("CVPR 2023".data
        ++ (')' :: (' ' :: ('[' :: ("[Link Label](http://x)".data ++ [']'])))))) by decide]
  rw [h]
  decide

/-- C6: a candidate line that does not match rule a but contains a markdown
link `[label](url)` (unambiguous decomposition: no `[` before it, nonempty
`]`-free, newline-free label, nonempty `)`-free url) extracts to the link
label, trimmed and then cleaned. -/
theorem extract_markdown_link_label (pre label url post : List Char)
    (hstrip : pyStrip (pre
        ++ ('[' :: (label ++ (']' :: ('(' :: (url ++ (')' :: post)))))))
      = pre ++ ('[' :: (label ++ (']' :: ('(' :: (url ++ (')' :: post)))))))
    (hA : matchA (pre
        ++ ('[' :: (label ++ (']' :: ('(' :: (url ++ (')' :: post))))))) = none)
    (hpre : '[' ∉ pre) (hl1 : label ≠ []) (hl2 : ']' ∉ label) (hl3 : '\n' ∉ label)
    (hu1 : url ≠ []) (hu2 : ')' ∉ url) :
    extractChars (pre ++ ('[' :: (label ++ (']' :: ('(' :: (url ++ (')' :: post)))))))
      = cleanupTitle (pyStrip label) := by
  unfold extractChars
  rw [hstrip]
  unfold rawTitle
  rw [hA, Option.elim_none, matchB_main hpre hl1 hl2 hl3 hu1 hu2, Option.elim_some]

/-- C6 witness: the spec's markdown-link example line. -/
theorem extract_markdown_link_label_witness :
    matchA ("[Great Paper Title](https://example.com/paper.pdf)" : String).data = none
    ∧ extract_title_from_line "[Great Paper Title](https://example.com/paper.pdf)"
        = "Great Paper Title" := by
  refine ⟨by decide, ?_⟩
  have h := extract_markdown_link_label [] "Great Paper Title".data
    "https://example.com/paper.pdf".data [] (by decide) (by decide) (by decide)
    (by decide) (by decide) (by decide) (by decide) (by decide)
  unfold extract_title_from_line
  rw [show ("[Great Paper Title](https://example.com/paper.pdf)" : String).data
      = [] ++ ('[' :: ("Great Paper Title".data
        ++ (']' :: ('(' :: ("https://example.com/paper.pdf".data
          ++ (')' :: ([] : List Char))))))) by decide]
  rw [h]
  decide

/-- C7: a line matching the `Authors:` skip-pattern is never classified as a
candidate and leaves any parser state unchanged — it never produces a
record, under any active section. -/
theorem authors_line_never_record (line : List Char) (cur : Option String)
    (m : List (String × List Paper))
    (h : authorsLabel ((pyStrip line).map Char.toLower) = true) :
    is_paper_title_line (pyStrip line) = false
    ∧ parseStep (cur, m) line = (cur, m) :=
  ⟨is_paper_title_false_of_authors (by rw [pyStrip_idem]; exact h),
   authors_parseStep line cur m h⟩

/-- C7 witness: the spec's `Authors:` example line under an active CVPR
section. -/
theorem authors_line_never_record_witness :
    authorsLabel ((pyStrip ("Authors: Jane Doe, John Smith" : String).data).map
      Char.toLower) = true
    ∧ is_paper_title_line (pyStrip ("Authors: Jane Doe, John Smith" : String).data)
        = false
    ∧ parseStep (some "CVPR", initSections)
        ("Authors: Jane Doe, John Smith" : String).data
        = (some "CVPR", initSections) := by
  refine ⟨by decide, ?_, ?_⟩
  · exact (authors_line_never_record ("Authors: Jane Doe, John Smith" : String).data
      (some "CVPR") initSections (by decide)).1
  · exact (authors_line_never_record ("Authors: Jane Doe, John Smith" : String).data
      (some "CVPR") initSections (by decide)).2

/-- C8 counterexample: the comma of the title is non-alphanumeric yet
survives in the output filename, so not all non-alphanumeric characters of
the title are stripped. -/
theorem sanitize_keeps_nonalnum_comma :
    sanitize_filename "Hello, World" "CVPR" = "CVPR_Hello,_World.pdf"
    ∧ ',' ∈ ("CVPR_Hello,_World.pdf" : String).data
    ∧ ','.isAlphanum = false := by
  decide

/-- C8 (amended): for a nonempty section, `sanitize_filename` returns the
section name, `_`, a core of at most 80 characters containing no whitespace
and none of the removed characters `<>:"/\|?*`, and the `.pdf` suffix; the
function is a pure function of `(title, section)`. -/
theorem sanitize_filename_shape (title sectionName : String)
    (h : sectionName ≠ "") :
    ∃ core : List Char,
      (sanitize_filename title sectionName).data
        = sectionName.data ++ '_' :: (core ++ ".pdf".data)
      ∧ core.length ≤ 80
      ∧ ∀ x ∈ core, isWS x = false ∧ x ∉ badFileChars := by
  simp only [sanitize_filename]
  rw [if_pos h]
  by_cases hlen : (collapseWith '_' (pyStrip ((title.data.filter
      (fun c => !decide (c ∈ badFileChars))).map
      (fun c => if c = '\n' || c = '\r' then ' ' else c)))).length > 80
  · rw [if_pos hlen]
    refine ⟨List.take 80 (collapseWith '_' (pyStrip ((title.data.filter
        (fun c => !decide (c ∈ badFileChars))).map
        (fun c => if c = '\n' || c = '\r' then ' ' else c)))), ?_, ?_, ?_⟩
    · simp
    · rw [List.length_take]
      exact min_le_left _ _
    · intro x hx
      exact sanitize_core_chars title x (List.mem_of_mem_take hx)
  · rw [if_neg hlen]
    refine ⟨collapseWith '_' (pyStrip ((title.data.filter
        (fun c => !decide (c ∈ badFileChars))).map
        (fun c => if c = '\n' || c = '\r' then ' ' else c))), ?_, ?_, ?_⟩
    · simp
    · omega
    · intro x hx
      exact sanitize_core_chars title x hx

/-- C8 witness: the shape at a concrete title and section. -/
theorem sanitize_filename_shape_witness :
    ("CVPR" : String) ≠ ""
    ∧ ∃ core : List Char,
        (sanitize_filename "Hello, World" "CVPR").data
          = ("CVPR" : String).data ++ '_' :: (core ++ ".pdf".data)
        ∧ core.length ≤ 80
        ∧ ∀ x ∈ core, isWS x = false ∧ x ∉ badFileChars :=
  ⟨by decide, sanitize_filename_shape "Hello, World" "CVPR" (by decide)⟩

/-- C9: the parser is a pure function of the document text (and the fixed
configured section set): two invocations on the same document yield the
same parse result. -/
theorem parse_deterministic (doc : String) :
    parse_papers_from_main_readme doc = parse_papers_from_main_readme doc := rfl

/-- C10 counterexample: the two titles are equal after lowercasing and
deleting non-word, non-space characters, yet their hashes differ, because
`clean_title` strips BEFORE deleting and so keeps whitespace exposed at the
edges by the deletion. -/
theorem hash_differs_despite_lower_delete_eq :
    lowerDelete "!  a" = lowerDelete "  a"
    ∧ generate_paper_hash "!  a" [] ≠ generate_paper_hash "  a" [] := by
  decide

/-- C10 (amended): the fingerprint is invariant under any change of title
that preserves `clean_title` (strip, then lowercase, then delete non-word,
non-space characters) and under any permutation of the author list. -/
theorem paper_hash_invariant (t1 t2 : String) (a1 a2 : List String)
    (ht : clean_title t1 = clean_title t2) (ha : a1.Perm a2) :
    generate_paper_hash t1 a1 = generate_paper_hash t2 a2 := by
  simp only [generate_paper_hash]
  rw [ht]
  by_cases h1 : a1 = []
  · subst h1
    have h2 : a2 = [] := ha.symm.eq_nil
    subst h2
    simp
  · have h2 : a2 ≠ [] := fun hh => h1 ((hh ▸ ha).eq_nil)
    rw [if_pos h1, if_pos h2]
    have hperm : ((a1.filter (fun a => a ≠ "")).map pyLowerStrip).Perm
        ((a2.filter (fun a => a ≠ "")).map pyLowerStrip) :=
      (ha.filter (fun a => a ≠ "")).map pyLowerStrip
    have hsort : List.insertionSort (fun a b : String => a ≤ b)
          ((a1.filter (fun a => a ≠ "")).map pyLowerStrip)
        = List.insertionSort (fun a b : String => a ≤ b)
          ((a2.filter (fun a => a ≠ "")).map pyLowerStrip) :=
      List.eq_of_perm_of_sorted
        (((List.perm_insertionSort _ _).trans hperm).trans
          (List.perm_insertionSort _ _).symm)
        (List.sorted_insertionSort _ _) (List.sorted_insertionSort _ _)
    rw [hsort]

/-- C10 witness: case/punctuation change in the title and a swap of the two
authors leave the hash unchanged. -/
theorem paper_hash_invariant_witness :
    clean_title "Deep Learning!" = clean_title "deep learning"
    ∧ generate_paper_hash "Deep Learning!" ["B Smith", "A Jones"]
        = generate_paper_hash "deep learning" ["A Jones", "B Smith"] :=
  ⟨by decide, paper_hash_invariant "Deep Learning!" "deep learning"
    ["B Smith", "A Jones"] ["A Jones", "B Smith"] (by decide)
    (List.Perm.swap "A Jones" "B Smith" [])⟩
